import Mathlib

/-!
A verification development for a Davis–Putnam style CNF satisfiability
procedure.  Literals are the character strings used by the program: an
identifier optionally prefixed by the negation mark '¬'.  Clauses are
finite sets of literals and formulas are finite sets of clauses, mirroring
the program's `frozenset`-of-`frozenset` representation.
-/

namespace DP

/-- A literal is the list of characters of the program's string literal. -/
abbrev Lit := List Char

/-- A clause is a duplicate-free unordered collection of literals. -/
abbrev Clause := Finset Lit

/-- A formula (CNF) is a duplicate-free unordered collection of clauses. -/
abbrev Formula := Finset Clause

/-- `literal.startswith('¬')` from the program. -/
def startsNeg : Lit → Bool
  | [] => false
  | c :: _ => decide (c = '¬')

/-- `negate`: `literal[1:] if literal.startswith('¬') else '¬' + literal`. -/
def negate (l : Lit) : Lit :=
  if startsNeg l then l.tail else '¬' :: l

/-- The set of all literal occurrences of a formula (the strings scanned by
`find_pure_literals`' double loop). -/
def allLits (cnf : Formula) : Finset Lit :=
  cnf.biUnion id

/-- The `literals` set of `find_pure_literals`: occurrences not starting
with the negation mark. -/
def posLits (cnf : Formula) : Finset Lit :=
  (allLits cnf).filter (fun l => startsNeg l = false)

/-- The `negations` set of `find_pure_literals`: each occurrence starting
with the negation mark contributes `literal[1:]`. -/
def negIdents (cnf : Formula) : Finset Lit :=
  ((allLits cnf).filter (fun l => startsNeg l = true)).image List.tail

/-- `find_pure_literals`: `(literals - negations) | {'¬'+l for l in negations - literals}`. -/
def find_pure_literals (cnf : Formula) : Finset Lit :=
  (posLits cnf \ negIdents cnf) ∪ ((negIdents cnf \ posLits cnf).image (fun t => '¬' :: t))

/-- The pure-literal elimination rewriting performed by the decision loop:
`{clause for clause in cnf if all(lit not in clause for lit in pure_literals)}`. -/
def pureElim (cnf : Formula) : Formula :=
  cnf.filter (fun c => ∀ l ∈ find_pure_literals cnf, l ∉ c)

/-- The unit literals collected by the decision loop:
`{next(iter(clause)) for clause in cnf if len(clause) == 1}`.  The sole
member of each one-element clause is exactly the union of those clauses. -/
def unitLits (cnf : Formula) : Finset Lit :=
  (cnf.filter (fun c => c.card = 1)).biUnion id

/-- `unit_propagate`: drop clauses meeting a unit literal, and strip from
the remaining clauses every literal whose negation is a unit literal. -/
def unit_propagate (cnf : Formula) (unit_literals : Finset Lit) : Formula :=
  (cnf.filter (fun c => c ∩ unit_literals = ∅)).image
    (fun c => c.filter (fun l => negate l ∉ unit_literals))

/-- `resolve_literal`: `{frozenset(clause - {literal}) for clause in cnf if literal in clause}`. -/
def resolve_literal (cnf : Formula) (literal : Lit) : Formula :=
  (cnf.filter (fun c => literal ∈ c)).image (fun c => c.erase literal)

/-- The literal-elimination rewriting of the decision loop:
`pos = resolve_literal(cnf, lit); neg = resolve_literal(cnf, negate(lit)); cnf = pos | neg`. -/
def resStep (cnf : Formula) (lit : Lit) : Formula :=
  resolve_literal cnf lit ∪ resolve_literal cnf (negate lit)

/-- The three observable outcomes of `davis_putnam`:
`True` (SAT), `False` (UNSAT) and `None` (step budget exhausted). -/
inductive DPResult : Type
  | SAT : DPResult
  | UNSAT : DPResult
  | ABORTED : DPResult
deriving DecidableEq

/-- The `davis_putnam` loop, indexed by the remaining step budget
`max_steps - steps` (the loop increments `steps` on every path that
continues, so the remaining budget decreases by one each iteration and the
top-of-loop check `steps >= max_steps` is exactly "remaining budget 0").
`choose` stands for `next(iter(next(iter(cnf))))`, the arbitrary
container-order literal pick. -/
def dpFuel (choose : Formula → Lit) : Nat → Formula → DPResult
  | 0, _ => .ABORTED
  | fuel + 1, cnf =>
    if (find_pure_literals cnf).Nonempty then
      dpFuel choose fuel (pureElim cnf)
    else if (unitLits cnf).Nonempty then
      dpFuel choose fuel (unit_propagate cnf (unitLits cnf))
    else if (∅ : Clause) ∈ cnf then
      .UNSAT
    else if cnf = ∅ then
      .SAT
    else
      dpFuel choose fuel (resStep cnf (choose cnf))

/-- `MAX_STEPS = 10000`. -/
def MAX_STEPS : Nat := 10000

/-- `davis_putnam(cnf, max_steps)`, starting from step counter `0`. -/
def davis_putnam (choose : Formula → Lit) (cnf : Formula) (max_steps : Nat) : DPResult :=
  dpFuel choose max_steps cnf

/-- One iteration of the `while True` body as a transition on the state
`(cnf, steps)`: either a new running state or a returned result, with the
checks in the program's order. -/
def loopBody (choose : Formula → Lit) (max_steps : Nat) (st : Formula × Nat) :
    (Formula × Nat) ⊕ DPResult :=
  if max_steps ≤ st.2 then .inr .ABORTED
  else if (find_pure_literals st.1).Nonempty then .inl (pureElim st.1, st.2 + 1)
  else if (unitLits st.1).Nonempty then .inl (unit_propagate st.1 (unitLits st.1), st.2 + 1)
  else if (∅ : Clause) ∈ st.1 then .inr .UNSAT
  else if st.1 = ∅ then .inr .SAT
  else .inl (resStep st.1 (choose st.1), st.2 + 1)

/-- One step of the loop on a possibly already-returned state. -/
def stepState (choose : Formula → Lit) (max_steps : Nat) :
    (Formula × Nat) ⊕ DPResult → (Formula × Nat) ⊕ DPResult
  | .inr r => .inr r
  | .inl st => loopBody choose max_steps st

/-- `n` iterations of the loop body. -/
def iterN (choose : Formula → Lit) (max_steps : Nat) :
    Nat → ((Formula × Nat) ⊕ DPResult) → ((Formula × Nat) ⊕ DPResult)
  | 0, s => s
  | n + 1, s => iterN choose max_steps n (stepState choose max_steps s)

/-- Total number of literal occurrences of a formula. -/
def occCount (cnf : Formula) : Nat :=
  ∑ c ∈ cnf, c.card

/-- The literal `l` occurs in some clause of the formula. -/
def occurs (cnf : Formula) (l : Lit) : Prop :=
  ∃ c ∈ cnf, l ∈ c

instance (cnf : Formula) (l : Lit) : Decidable (occurs cnf l) := by
  unfold occurs; infer_instance

/-- A well-formed literal: an identifier optionally prefixed by a single
negation mark (after stripping one mark, no mark remains in front). -/
def wfLit (l : Lit) : Bool :=
  !(startsNeg l && startsNeg l.tail)

/-- The identifier (variable name) of a literal. -/
def ident (l : Lit) : Lit :=
  if startsNeg l then l.tail else l

/-- Truth value of a literal under an assignment of the identifier strings:
each leading negation mark flips the value. -/
def evalLit (σ : Lit → Bool) : Lit → Bool
  | [] => σ []
  | c :: t => if c = '¬' then !(evalLit σ t) else σ (c :: t)

/-- An assignment satisfies a clause if it makes some member literal true. -/
def satClause (σ : Lit → Bool) (c : Clause) : Prop :=
  ∃ l ∈ c, evalLit σ l = true

instance (σ : Lit → Bool) (c : Clause) : Decidable (satClause σ c) := by
  unfold satClause; infer_instance

/-- An assignment satisfies a formula if it satisfies every clause. -/
def satCNF (σ : Lit → Bool) (cnf : Formula) : Prop :=
  ∀ c ∈ cnf, satClause σ c

instance (σ : Lit → Bool) (cnf : Formula) : Decidable (satCNF σ cnf) := by
  unfold satCNF; infer_instance

/-- Concrete literals for the example formulas. -/
def litA : Lit := ['A']

def litB : Lit := ['B']

def litC : Lit := ['C']

def nlitA : Lit := ['¬', 'A']

def nlitB : Lit := ['¬', 'B']

def nlitC : Lit := ['¬', 'C']

/-- A concrete literal-selection function (never consulted in the concrete
runs below that terminate before the elimination step). -/
def chooseA : Formula → Lit := fun _ => litA

/-- The formula `{{A}, {¬A}}` of the program's example `Trivial UNSAT`. -/
def cnfC1 : Formula := {{litA}, {nlitA}}

/-- A formula containing the empty clause, plus one satisfiable clause. -/
def cnfC2 : Formula := {(∅ : Clause), {litB}}

/-- A formula of two tautological clauses on `A`, with no pure literal, no
unit clause and no empty clause. -/
def cnfTaut : Formula := {{litA, nlitA, litB}, {litA, nlitA, nlitB}}

/-- A formula in which the clause `{B, C}` mentions neither `A` nor `¬A`
yet coincides with `{A, B, C}` minus `A`. -/
def cnfC5 : Formula :=
  {{litA, litB, litC}, {litB, litC}, {nlitA, nlitB}, {nlitB, nlitC}, {nlitC, nlitA}}

/-- The single unit clause `{{A}}`. -/
def cnfC6 : Formula := {{litA}}

/-- The unit-literal set `{A}` extracted from `cnfC6`. -/
def unitsC6 : Finset Lit := {litA}

/-- A tautology-free formula on which the literal-elimination step runs. -/
def cnfRes : Formula := {{litA, litB}, {nlitA, nlitB}, {litA, nlitB}, {nlitA, litB}}

/-- Two iterations suffice on `cnfC1`: the unit-propagation step drops both
unit clauses (each contains its own unit literal), leaving the empty
formula, which the next iteration reports satisfiable. -/
theorem dpFuel_cnfC1_eq_sat (choose : Formula → Lit) (fuel : Nat) :
    dpFuel choose (fuel + 2) cnfC1 = .SAT := by
  show dpFuel choose (fuel + 1 + 1) cnfC1 = .SAT
  rw [dpFuel, if_neg (by decide), if_pos (by decide)]
  rw [dpFuel, if_neg (by decide), if_neg (by decide), if_neg (by decide), if_pos (by decide)]

/-- Claim C1: on the formula `{{A}, {¬A}}` the program returns SAT, for
every literal-selection order — the unit-propagation step deletes both unit
clauses because each clause intersects the unit-literal set, so the
contradiction is never detected and the empty formula is reported
satisfiable.  This contradicts the specification and the program's own
example name `Trivial UNSAT`. -/
theorem c1_trivial_contradiction_evaluates_to_sat (choose : Formula → Lit) :
    davis_putnam choose cnfC1 MAX_STEPS = .SAT :=
  dpFuel_cnfC1_eq_sat choose 9998

/-- Claim C2, counterexample: the formula `{∅, {B}}` contains the empty
clause, yet with step budget `1` the run aborts (the first iteration
performs pure-literal elimination on `B`, exhausting the budget before the
empty-clause check is reached). -/
theorem c2_counterexample_aborts_on_empty_clause :
    ((∅ : Clause) ∈ cnfC2) ∧ davis_putnam chooseA cnfC2 1 = .ABORTED := by
  constructor
  · decide
  · decide

/-- Claim C3, counterexample: on `cnfTaut` the literal-elimination step
runs (no pure literals, no unit clauses, formula nonempty, no empty
clause) with chosen literal `A`, but the resulting formula still contains
an occurrence of `¬A`: a clause containing both `A` and `¬A` keeps the
opposite polarity after one of them is erased. -/
theorem c3_counterexample_identifier_survives :
    (¬ (find_pure_literals cnfTaut).Nonempty) ∧
      (¬ (unitLits cnfTaut).Nonempty) ∧
      ((∅ : Clause) ∉ cnfTaut) ∧
      (cnfTaut ≠ ∅) ∧
      (∃ c ∈ cnfTaut, litA ∈ c) ∧
      ¬ (∀ c' ∈ resStep cnfTaut litA, litA ∉ c' ∧ negate litA ∉ c') := by
  refine ⟨by decide, by decide, by decide, by decide, by decide, ?_⟩
  intro h
  exact absurd (h {nlitA, litB} (by decide)).2 (by decide)

/-- Claim C4, counterexample: the loop iteration on `cnfTaut` is
non-terminal (it performs the literal-elimination step on `A`), yet the
new formula has strictly more clauses (4 against 2) and strictly more
literal occurrences (8 against 6) than the old one. -/
theorem c4_counterexample_measure_grows :
    loopBody chooseA 10 (cnfTaut, 0) = .inl (resStep cnfTaut litA, 1) ∧
      ¬ ((resStep cnfTaut litA).card < cnfTaut.card ∨
          occCount (resStep cnfTaut litA) < occCount cnfTaut) := by
  constructor
  · decide
  · decide

/-- Claim C5, counterexample: on `cnfC5` the literal-elimination step runs
with chosen literal `A`; the clause `{B, C}` contains neither `A` nor
`¬A`, yet it is present in the resulting formula, because it coincides
with the clause `{A, B, C}` with `A` removed. -/
theorem c5_counterexample_untouched_clause_present :
    (¬ (find_pure_literals cnfC5).Nonempty) ∧
      (¬ (unitLits cnfC5).Nonempty) ∧
      ((∅ : Clause) ∉ cnfC5) ∧
      (cnfC5 ≠ ∅) ∧
      (∃ c ∈ cnfC5, litA ∈ c) ∧
      (({litB, litC} : Clause) ∈ cnfC5) ∧
      (litA ∉ ({litB, litC} : Clause)) ∧
      (negate litA ∉ ({litB, litC} : Clause)) ∧
      (({litB, litC} : Clause) ∈ resStep cnfC5 litA) := by
  refine ⟨by decide, by decide, by decide, by decide, by decide, by decide, by decide,
    by decide, by decide⟩

/-- Claim C6, counterexample: for `F = {{A}}` and the contradiction-free
unit set `U = {A}`, `unit_propagate` returns the empty formula, which the
all-false assignment satisfies although it satisfies neither `F` nor the
unit literal `A` — the output is not logically equivalent to `F` conjoined
with the units. -/
theorem c6_counterexample_not_equivalent :
    (∀ l ∈ unitsC6, negate l ∉ unitsC6) ∧
      ¬ (∀ σ : Lit → Bool,
          satCNF σ (unit_propagate cnfC6 unitsC6) ↔
            (satCNF σ cnfC6 ∧ ∀ l ∈ unitsC6, evalLit σ l = true)) := by
  refine ⟨by decide, ?_⟩
  intro h
  have h2 := (h (fun _ => false)).mp (by decide)
  exact absurd h2.1 (by decide)

/-- Negating a literal string flips its truth value under every assignment. -/
theorem evalLit_negate (σ : Lit → Bool) (l : Lit) :
    evalLit σ (negate l) = !(evalLit σ l) := by
  rcases l with _ | ⟨c, t⟩
  · simp [negate, startsNeg, evalLit]
  · by_cases hc : c = '¬'
    · subst hc
      simp [negate, startsNeg, evalLit]
    · simp [negate, startsNeg, evalLit, hc]

/-- Claim C6 (amended): for unit literals with no internal contradiction,
the output of `unit_propagate` is equivalent to the input formula under
every assignment that makes all the unit literals true (rather than
unconditionally equivalent to the input conjoined with the units). -/
theorem c6_amended_unit_propagate_equiv_under_units (cnf : Formula) (units : Finset Lit)
    (σ : Lit → Bool) (_hnc : ∀ l ∈ units, negate l ∉ units)
    (hu : ∀ l ∈ units, evalLit σ l = true) :
    satCNF σ (unit_propagate cnf units) ↔ satCNF σ cnf := by
  constructor
  · intro h c hc
    by_cases hint : c ∩ units = ∅
    · have hc' : c.filter (fun l => negate l ∉ units) ∈ unit_propagate cnf units :=
        Finset.mem_image_of_mem _ (Finset.mem_filter.mpr ⟨hc, hint⟩)
      obtain ⟨l, hl, hev⟩ := h _ hc'
      exact ⟨l, (Finset.mem_filter.mp hl).1, hev⟩
    · obtain ⟨l, hl⟩ := Finset.nonempty_iff_ne_empty.mpr hint
      rw [Finset.mem_inter] at hl
      exact ⟨l, hl.1, hu l hl.2⟩
  · intro h c' hc'
    rw [unit_propagate, Finset.mem_image] at hc'
    obtain ⟨c, hc, rfl⟩ := hc'
    rw [Finset.mem_filter] at hc
    obtain ⟨l, hl, hev⟩ := h c hc.1
    refine ⟨l, Finset.mem_filter.mpr ⟨hl, ?_⟩, hev⟩
    intro hneg
    have hfl := hu _ hneg
    rw [evalLit_negate, hev] at hfl
    simp at hfl

/-- Witness for the amended C6 at `F = {{A}}`, `U = {A}` and the all-true
assignment. -/
theorem c6_amended_witness :
    (∀ l ∈ unitsC6, negate l ∉ unitsC6) ∧
      (∀ l ∈ unitsC6, evalLit (fun _ => true) l = true) ∧
      (satCNF (fun _ => true) (unit_propagate cnfC6 unitsC6) ↔
        satCNF (fun _ => true) cnfC6) :=
  ⟨by decide, by decide,
    c6_amended_unit_propagate_equiv_under_units cnfC6 unitsC6 (fun _ => true)
      (by decide) (by decide)⟩

/-- A literal occurrence, as a member of the union of the clauses. -/
theorem mem_allLits {cnf : Formula} {l : Lit} : l ∈ allLits cnf ↔ occurs cnf l := by
  simp [allLits, occurs, Finset.mem_biUnion]

/-- Membership in the `literals` set of `find_pure_literals`. -/
theorem mem_posLits {cnf : Formula} {l : Lit} :
    l ∈ posLits cnf ↔ occurs cnf l ∧ startsNeg l = false := by
  rw [posLits, Finset.mem_filter, mem_allLits]

/-- A string starting with the negation mark is the mark followed by its tail. -/
theorem startsNeg_eq_cons {m : Lit} (h : startsNeg m = true) : m = '¬' :: m.tail := by
  rcases m with _ | ⟨c, t⟩
  · simp [startsNeg] at h
  · simp [startsNeg] at h
    rw [h]
    rfl

/-- Membership in the `negations` set of `find_pure_literals`. -/
theorem mem_negIdents {cnf : Formula} {t : Lit} :
    t ∈ negIdents cnf ↔ occurs cnf ('¬' :: t) := by
  rw [negIdents, Finset.mem_image]
  constructor
  · rintro ⟨m, hm, rfl⟩
    rw [Finset.mem_filter, mem_allLits] at hm
    rw [← startsNeg_eq_cons hm.2]
    exact hm.1
  · intro h
    refine ⟨'¬' :: t, ?_, rfl⟩
    rw [Finset.mem_filter, mem_allLits]
    exact ⟨h, by simp [startsNeg]⟩

/-- Claim C7: on a formula whose literals are well-formed,
`find_pure_literals` returns exactly the literals that occur in the
formula while their negation occurs nowhere in it. -/
theorem c7_find_pure_literals_characterization (cnf : Formula)
    (hwf : ∀ c ∈ cnf, ∀ l ∈ c, wfLit l = true) (l : Lit) :
    l ∈ find_pure_literals cnf ↔ (occurs cnf l ∧ ¬ occurs cnf (negate l)) := by
  rw [find_pure_literals, Finset.mem_union, Finset.mem_sdiff]
  rcases l with _ | ⟨c, t⟩
  · have himg : ([] : Lit) ∉ (negIdents cnf \ posLits cnf).image (fun t => '¬' :: t) := by
      rw [Finset.mem_image]
      rintro ⟨q, _, hq⟩
      exact List.noConfusion hq
    rw [mem_posLits, mem_negIdents]
    simp only [himg, or_false]
    have : negate ([] : Lit) = ['¬'] := by decide
    rw [this]
    simp [startsNeg]
  · by_cases hc : c = '¬'
    · subst hc
      have hpos : ('¬' :: t) ∉ posLits cnf := by
        rw [mem_posLits]
        rintro ⟨-, hs⟩
        simp [startsNeg] at hs
      have himg : ('¬' :: t) ∈ (negIdents cnf \ posLits cnf).image (fun t => '¬' :: t) ↔
          t ∈ negIdents cnf \ posLits cnf := by
        rw [Finset.mem_image]
        constructor
        · rintro ⟨q, hq, hEq⟩
          obtain rfl : q = t := by
            injection hEq
          exact hq
        · intro hq
          exact ⟨t, hq, rfl⟩
      simp only [hpos, false_and, false_or, himg]
      rw [Finset.mem_sdiff, mem_negIdents, mem_posLits]
      have hneg : negate ('¬' :: t) = t := by
        simp [negate, startsNeg]
      rw [hneg]
      constructor
      · rintro ⟨hocc, hnp⟩
        refine ⟨hocc, fun hot => hnp ⟨hot, ?_⟩⟩
        obtain ⟨cl, hcl, hmem⟩ := hocc
        have hw := hwf cl hcl _ hmem
        rw [wfLit] at hw
        simpa [startsNeg] using hw
      · rintro ⟨hocc, hnt⟩
        exact ⟨hocc, fun hp => hnt hp.1⟩
    · have hs : startsNeg (c :: t) = false := by
        simp [startsNeg, hc]
      have himg : (c :: t) ∉ (negIdents cnf \ posLits cnf).image (fun t => '¬' :: t) := by
        rw [Finset.mem_image]
        rintro ⟨q, _, hEq⟩
        apply hc
        injection hEq with h1 h2
        exact h1.symm
      have hneg : negate (c :: t) = '¬' :: c :: t := by
        simp [negate, hs]
      simp only [himg, or_false]
      rw [mem_posLits, mem_negIdents, hneg, hs]
      simp

/-- Witness for C7 at the well-formed formula `{{A, B}, {¬A}}` and the
pure literal `B`. -/
theorem c7_witness :
    (∀ c ∈ ({{litA, litB}, {nlitA}} : Formula), ∀ l ∈ c, wfLit l = true) ∧
      (litB ∈ find_pure_literals {{litA, litB}, {nlitA}} ↔
        (occurs {{litA, litB}, {nlitA}} litB ∧
          ¬ occurs {{litA, litB}, {nlitA}} (negate litB))) :=
  ⟨by decide, c7_find_pure_literals_characterization _ (by decide) litB⟩

/-- Claim C8: on well-formed literals, `negate` is an involution that
keeps the identifier and flips the polarity (it is total by construction). -/
theorem c8_negate_involutive (l : Lit) (hwf : wfLit l = true) :
    negate (negate l) = l ∧ ident (negate l) = ident l ∧
      startsNeg (negate l) = !startsNeg l := by
  rcases l with _ | ⟨c, t⟩
  · refine ⟨by decide, by decide, by decide⟩
  · by_cases hc : c = '¬'
    · subst hc
      have ht : startsNeg t = false := by
        rw [wfLit] at hwf
        simpa [startsNeg] using hwf
      have hs : startsNeg ('¬' :: t) = true := by
        simp [startsNeg]
      simp [negate, ident, hs, ht]
    · simp [negate, startsNeg, ident, hc]

/-- Witness for C8 at the literal `A`. -/
theorem c8_witness :
    wfLit litA = true ∧
      (negate (negate litA) = litA ∧ ident (negate litA) = ident litA ∧
        startsNeg (negate litA) = !startsNeg litA) :=
  ⟨by decide, c8_negate_involutive litA (by decide)⟩

/-- Every pure literal occurs somewhere in the formula. -/
theorem pure_occurs {cnf : Formula} {p : Lit} (hp : p ∈ find_pure_literals cnf) :
    occurs cnf p := by
  rw [find_pure_literals, Finset.mem_union] at hp
  rcases hp with hp | hp
  · exact (mem_posLits.mp (Finset.mem_sdiff.mp hp).1).1
  · rw [Finset.mem_image] at hp
    obtain ⟨q, hq, rfl⟩ := hp
    exact mem_negIdents.mp (Finset.mem_sdiff.mp hq).1

/-- The pure-literal rewriting strictly decreases the clause count. -/
theorem pureElim_card_lt {cnf : Formula} (h : (find_pure_literals cnf).Nonempty) :
    (pureElim cnf).card < cnf.card := by
  obtain ⟨p, hp⟩ := h
  obtain ⟨cl, hcl, hmem⟩ := pure_occurs hp
  apply Finset.card_lt_card
  rw [pureElim, Finset.ssubset_iff_of_subset (Finset.filter_subset _ _)]
  refine ⟨cl, hcl, fun hin => ?_⟩
  exact (Finset.mem_filter.mp hin).2 p hp hmem

/-- The empty clause survives the pure-literal rewriting. -/
theorem empty_mem_pureElim {cnf : Formula} (h : (∅ : Clause) ∈ cnf) :
    (∅ : Clause) ∈ pureElim cnf := by
  rw [pureElim, Finset.mem_filter]
  exact ⟨h, by simp⟩

/-- The empty clause survives unit propagation. -/
theorem empty_mem_unit_propagate {cnf : Formula} {units : Finset Lit}
    (h : (∅ : Clause) ∈ cnf) : (∅ : Clause) ∈ unit_propagate cnf units := by
  rw [unit_propagate, Finset.mem_image]
  exact ⟨∅, Finset.mem_filter.mpr ⟨h, by simp⟩, by simp⟩

/-- Unit propagation on the unit literals of the formula strictly decreases
the clause count: each unit clause intersects the unit-literal set and is
dropped, and the remaining clauses are only merged or kept. -/
theorem unit_propagate_card_lt {cnf : Formula} (h : (unitLits cnf).Nonempty) :
    (unit_propagate cnf (unitLits cnf)).card < cnf.card := by
  obtain ⟨u, hu⟩ := h
  have hu' := hu
  rw [unitLits, Finset.mem_biUnion] at hu'
  obtain ⟨cl, hcl, hmem⟩ := hu'
  rw [Finset.mem_filter] at hcl
  have hfil : (cnf.filter (fun c => c ∩ unitLits cnf = ∅)).card < cnf.card := by
    apply Finset.card_lt_card
    rw [Finset.ssubset_iff_of_subset (Finset.filter_subset _ _)]
    refine ⟨cl, hcl.1, fun hin => ?_⟩
    have hcond := (Finset.mem_filter.mp hin).2
    have : u ∈ cl ∩ unitLits cnf := Finset.mem_inter.mpr ⟨hmem, hu⟩
    rw [hcond] at this
    exact Finset.not_mem_empty u this
  exact lt_of_le_of_lt (Finset.card_image_le) hfil

/-- The total clause size over an image is at most the total of the
pointwise images (merged clauses are counted once instead of twice). -/
theorem sum_card_image_le (s : Finset Clause) (f : Clause → Clause) :
    ∑ c ∈ s.image f, c.card ≤ ∑ c ∈ s, (f c).card := by
  induction s using Finset.induction_on with
  | empty => simp
  | @insert a s ha ih =>
    rw [Finset.image_insert, Finset.sum_insert ha]
    by_cases hfa : f a ∈ s.image f
    · rw [Finset.insert_eq_self.mpr hfa]
      exact le_trans ih (Nat.le_add_left _ _)
    · rw [Finset.sum_insert hfa]
      exact Nat.add_le_add_left ih _

/-- Total clause size is subadditive over a union of clause sets. -/
theorem sum_card_union_le (s t : Finset Clause) :
    ∑ c ∈ s ∪ t, c.card ≤ (∑ c ∈ s, c.card) + ∑ c ∈ t, c.card := by
  rw [← Finset.union_sdiff_self_eq_union, Finset.sum_union Finset.disjoint_sdiff]
  exact Nat.add_le_add_left (Finset.sum_le_sum_of_subset (Finset.sdiff_subset)) _

/-- Summing `card - 1` over clauses all containing a fixed literal. -/
theorem sum_card_pred_add_card {s : Finset Clause} {lit : Lit}
    (h : ∀ c ∈ s, lit ∈ c) :
    (∑ c ∈ s, (c.card - 1)) + s.card = ∑ c ∈ s, c.card := by
  have h1 : ∀ c ∈ s, (c.card - 1) + 1 = c.card := by
    intro c hc
    have : 0 < c.card := Finset.card_pos.mpr ⟨lit, h c hc⟩
    omega
  calc (∑ c ∈ s, (c.card - 1)) + s.card
      = (∑ c ∈ s, (c.card - 1)) + ∑ _c ∈ s, 1 := by
        rw [Finset.sum_const, smul_eq_mul, mul_one]
    _ = ∑ c ∈ s, ((c.card - 1) + 1) := by
        rw [Finset.sum_add_distrib]
    _ = ∑ c ∈ s, c.card := Finset.sum_congr rfl h1

/-- If no clause contains the chosen literal in both polarities, the
literal-elimination rewriting strictly decreases the clause count or the
total literal-occurrence count. -/
theorem resStep_shrinks (cnf : Formula) (lit : Lit) (hne : cnf ≠ ∅)
    (htaut : ∀ c ∈ cnf, ¬(lit ∈ c ∧ negate lit ∈ c)) :
    (resStep cnf lit).card < cnf.card ∨ occCount (resStep cnf lit) < occCount cnf := by
  set A := cnf.filter (fun c => lit ∈ c) with hA
  set B := cnf.filter (fun c => negate lit ∈ c) with hB
  have hdisj : Disjoint A B := by
    rw [Finset.disjoint_left]
    intro c hcA hcB
    rw [hA, Finset.mem_filter] at hcA
    rw [hB, Finset.mem_filter] at hcB
    exact htaut c hcA.1 ⟨hcA.2, hcB.2⟩
  have hsubA : A ⊆ cnf := Finset.filter_subset _ _
  have hsubB : B ⊆ cnf := Finset.filter_subset _ _
  have hres : resStep cnf lit = A.image (fun c => c.erase lit) ∪
      B.image (fun c => c.erase (negate lit)) := rfl
  by_cases hAB : A ∪ B = cnf
  · right
    have hAlit : ∀ c ∈ A, lit ∈ c := fun c hc => (Finset.mem_filter.mp hc).2
    have hBlit : ∀ c ∈ B, negate lit ∈ c := fun c hc => (Finset.mem_filter.mp hc).2
    have hsum1 : occCount (resStep cnf lit) ≤
        (∑ c ∈ A.image (fun c => c.erase lit), c.card) +
          ∑ c ∈ B.image (fun c => c.erase (negate lit)), c.card := by
      rw [hres, occCount]
      exact sum_card_union_le _ _
    have hsum2 : (∑ c ∈ A.image (fun c => c.erase lit), c.card) ≤
        ∑ c ∈ A, (c.card - 1) := by
      refine le_trans (sum_card_image_le A _) (le_of_eq (Finset.sum_congr rfl ?_))
      intro c hc
      rw [Finset.card_erase_of_mem (hAlit c hc)]
    have hsum3 : (∑ c ∈ B.image (fun c => c.erase (negate lit)), c.card) ≤
        ∑ c ∈ B, (c.card - 1) := by
      refine le_trans (sum_card_image_le B _) (le_of_eq (Finset.sum_congr rfl ?_))
      intro c hc
      rw [Finset.card_erase_of_mem (hBlit c hc)]
    have hEA := sum_card_pred_add_card hAlit
    have hEB := sum_card_pred_add_card hBlit
    have hocc : occCount cnf = (∑ c ∈ A, c.card) + ∑ c ∈ B, c.card := by
      rw [occCount, ← hAB, Finset.sum_union hdisj]
    have hcard : cnf.card = A.card + B.card := by
      rw [← hAB, Finset.card_union_of_disjoint hdisj]
    have hpos : 0 < cnf.card := Finset.card_pos.mpr (Finset.nonempty_iff_ne_empty.mpr hne)
    omega
  · left
    have hss : A ∪ B ⊂ cnf := (Finset.union_subset hsubA hsubB).ssubset_of_ne hAB
    have h1 : (resStep cnf lit).card ≤ A.card + B.card := by
      rw [hres]
      exact le_trans (Finset.card_union_le _ _)
        (Nat.add_le_add (Finset.card_image_le) (Finset.card_image_le))
    rw [← Finset.card_union_of_disjoint hdisj] at h1
    exact lt_of_le_of_lt h1 (Finset.card_lt_card hss)

/-- The budget-indexed loop never answers SAT while the empty clause is in
the formula: both simplification steps preserve the empty clause, and the
elimination step is never reached past the empty-clause check. -/
theorem dpFuel_ne_sat_of_empty_mem (choose : Formula → Lit) :
    ∀ fuel cnf, (∅ : Clause) ∈ cnf → dpFuel choose fuel cnf ≠ .SAT := by
  intro fuel
  induction fuel with
  | zero =>
    intro cnf _h
    simp [dpFuel]
  | succ n ih =>
    intro cnf h
    rw [dpFuel]
    by_cases h1 : (find_pure_literals cnf).Nonempty
    · rw [if_pos h1]
      exact ih _ (empty_mem_pureElim h)
    · rw [if_neg h1]
      by_cases h2 : (unitLits cnf).Nonempty
      · rw [if_pos h2]
        exact ih _ (empty_mem_unit_propagate h)
      · rw [if_neg h2, if_pos h]
        simp

/-- With enough budget (at least the clause count) the loop reports UNSAT
on a formula containing the empty clause. -/
theorem dpFuel_unsat_of_empty_mem (choose : Formula → Lit) :
    ∀ fuel cnf, (∅ : Clause) ∈ cnf → cnf.card ≤ fuel →
      dpFuel choose fuel cnf = .UNSAT := by
  intro fuel
  induction fuel with
  | zero =>
    intro cnf h hcard
    have : cnf = ∅ := Finset.card_eq_zero.mp (Nat.le_zero.mp hcard)
    rw [this] at h
    exact absurd h (Finset.not_mem_empty _)
  | succ n ih =>
    intro cnf h hcard
    rw [dpFuel]
    by_cases h1 : (find_pure_literals cnf).Nonempty
    · rw [if_pos h1]
      have hlt := pureElim_card_lt h1
      exact ih _ (empty_mem_pureElim h) (by omega)
    · rw [if_neg h1]
      by_cases h2 : (unitLits cnf).Nonempty
      · rw [if_pos h2]
        have hlt := unit_propagate_card_lt h2
        exact ih _ (empty_mem_unit_propagate h) (by omega)
      · rw [if_neg h2, if_pos h]

/-!
Amended claim theorems for the decision loop follow.
-/

/-- Claim C2 (amended): a formula containing the empty clause never yields
SAT; it yields UNSAT whenever the step budget is at least the clause count
(in particular whenever the budget is not exhausted first), and may only
otherwise yield ABORTED. -/
theorem c2_amended_empty_clause_never_sat (choose : Formula → Lit) (cnf : Formula)
    (max_steps : Nat) (h : (∅ : Clause) ∈ cnf) :
    davis_putnam choose cnf max_steps ≠ .SAT ∧
      (cnf.card ≤ max_steps → davis_putnam choose cnf max_steps = .UNSAT) :=
  ⟨dpFuel_ne_sat_of_empty_mem choose max_steps cnf h,
    fun hcard => dpFuel_unsat_of_empty_mem choose max_steps cnf h hcard⟩

/-- Witness for the amended C2 on `{∅, {B}}` with budget 2. -/
theorem c2_amended_witness :
    (((∅ : Clause) ∈ cnfC2) ∧ cnfC2.card ≤ 2) ∧
      (davis_putnam chooseA cnfC2 2 ≠ .SAT ∧ davis_putnam chooseA cnfC2 2 = .UNSAT) :=
  ⟨⟨by decide, by decide⟩,
    (c2_amended_empty_clause_never_sat chooseA cnfC2 2 (by decide)).1,
    (c2_amended_empty_clause_never_sat chooseA cnfC2 2 (by decide)).2 (by decide)⟩

/-- Claim C4 (amended): every non-terminal iteration strictly reduces the
clause count or the total literal-occurrence count, provided no clause of
the formula contains the chosen literal in both polarities (the
pure-literal and unit-propagation cases need no proviso). -/
theorem c4_amended_nonterminal_iteration_shrinks (choose : Formula → Lit)
    (max_steps : Nat) (cnf : Formula) (steps : Nat) (cnf' : Formula) (steps' : Nat)
    (hstep : loopBody choose max_steps (cnf, steps) = .inl (cnf', steps'))
    (htaut : ∀ c ∈ cnf, ¬(choose cnf ∈ c ∧ negate (choose cnf) ∈ c)) :
    cnf'.card < cnf.card ∨ occCount cnf' < occCount cnf := by
  simp only [loopBody] at hstep
  by_cases h1 : max_steps ≤ steps
  · rw [if_pos h1] at hstep
    exact absurd hstep (by simp)
  rw [if_neg h1] at hstep
  by_cases h2 : (find_pure_literals cnf).Nonempty
  · rw [if_pos h2] at hstep
    simp only [Sum.inl.injEq, Prod.mk.injEq] at hstep
    rw [← hstep.1]
    exact Or.inl (pureElim_card_lt h2)
  rw [if_neg h2] at hstep
  by_cases h3 : (unitLits cnf).Nonempty
  · rw [if_pos h3] at hstep
    simp only [Sum.inl.injEq, Prod.mk.injEq] at hstep
    rw [← hstep.1]
    exact Or.inl (unit_propagate_card_lt h3)
  rw [if_neg h3] at hstep
  by_cases h4 : (∅ : Clause) ∈ cnf
  · rw [if_pos h4] at hstep
    exact absurd hstep (by simp)
  rw [if_neg h4] at hstep
  by_cases h5 : cnf = ∅
  · rw [if_pos h5] at hstep
    exact absurd hstep (by simp)
  rw [if_neg h5] at hstep
  simp only [Sum.inl.injEq, Prod.mk.injEq] at hstep
  rw [← hstep.1]
  exact resStep_shrinks cnf (choose cnf) h5 htaut

/-- Witness for the amended C4: the pure-literal iteration on
`{{A}, {¬A,B}, {¬B,C}}` strictly shrinks the formula. -/
theorem c4_amended_witness :
    (loopBody chooseA 10 ({{litA}, {nlitA, litB}, {nlitB, litC}}, 0) =
        .inl (pureElim {{litA}, {nlitA, litB}, {nlitB, litC}}, 1)) ∧
      ((pureElim {{litA}, {nlitA, litB}, {nlitB, litC}}).card <
          ({{litA}, {nlitA, litB}, {nlitB, litC}} : Formula).card ∨
        occCount (pureElim {{litA}, {nlitA, litB}, {nlitB, litC}}) <
          occCount {{litA}, {nlitA, litB}, {nlitB, litC}}) :=
  ⟨by decide,
    c4_amended_nonterminal_iteration_shrinks chooseA 10 _ 0 _ 1 (by decide) (by decide)⟩

/-- Claim C3 (amended): when the literal-elimination step runs and no
clause contains the chosen literal in both polarities, the resulting
formula contains no occurrence of the chosen literal or of its negation,
and differs from the input formula. -/
theorem c3_amended_elimination_removes_variable (cnf : Formula) (lit : Lit)
    (_h1 : ¬ (find_pure_literals cnf).Nonempty) (_h2 : ¬ (unitLits cnf).Nonempty)
    (_h3 : (∅ : Clause) ∉ cnf) (_h4 : cnf ≠ ∅)
    (h5 : ∃ c ∈ cnf, lit ∈ c)
    (htaut : ∀ c ∈ cnf, ¬(lit ∈ c ∧ negate lit ∈ c)) :
    (∀ c' ∈ resStep cnf lit, lit ∉ c' ∧ negate lit ∉ c') ∧ resStep cnf lit ≠ cnf := by
  have hkey : ∀ c' ∈ resStep cnf lit, lit ∉ c' ∧ negate lit ∉ c' := by
    intro c' hc'
    rw [resStep, Finset.mem_union] at hc'
    rcases hc' with hc' | hc' <;> rw [resolve_literal, Finset.mem_image] at hc'
    · obtain ⟨c, hc, rfl⟩ := hc'
      rw [Finset.mem_filter] at hc
      exact ⟨Finset.not_mem_erase _ _,
        fun hneg => htaut c hc.1 ⟨hc.2, Finset.mem_of_mem_erase hneg⟩⟩
    · obtain ⟨c, hc, rfl⟩ := hc'
      rw [Finset.mem_filter] at hc
      exact ⟨fun hl => htaut c hc.1 ⟨Finset.mem_of_mem_erase hl, hc.2⟩,
        Finset.not_mem_erase _ _⟩
  refine ⟨hkey, fun heq => ?_⟩
  obtain ⟨c, hc, hlit⟩ := h5
  exact (hkey c (by rw [heq]; exact hc)).1 hlit

/-- Witness for the amended C3 on the tautology-free formula `cnfRes` with
chosen literal `A`. -/
theorem c3_amended_witness :
    ((¬ (find_pure_literals cnfRes).Nonempty) ∧ (¬ (unitLits cnfRes).Nonempty) ∧
        ((∅ : Clause) ∉ cnfRes) ∧ (cnfRes ≠ ∅) ∧ (∃ c ∈ cnfRes, litA ∈ c) ∧
        (∀ c ∈ cnfRes, ¬(litA ∈ c ∧ negate litA ∈ c))) ∧
      ((∀ c' ∈ resStep cnfRes litA, litA ∉ c' ∧ negate litA ∉ c') ∧
        resStep cnfRes litA ≠ cnfRes) :=
  ⟨⟨by decide, by decide, by decide, by decide, by decide, by decide⟩,
    c3_amended_elimination_removes_variable cnfRes litA (by decide) (by decide)
      (by decide) (by decide) (by decide) (by decide)⟩

/-- Every clause produced by the literal-elimination rewriting is an input
clause containing the chosen literal or its negation, with that literal
removed (hence a proper subset of its source clause). -/
theorem resStep_mem_reduced (cnf : Formula) (lit : Lit) :
    ∀ c' ∈ resStep cnf lit, ∃ c ∈ cnf, c' ⊂ c ∧ (lit ∈ c ∨ negate lit ∈ c) := by
  intro c' hc'
  rw [resStep, Finset.mem_union] at hc'
  rcases hc' with hc' | hc' <;> rw [resolve_literal, Finset.mem_image] at hc'
  · obtain ⟨c, hc, rfl⟩ := hc'
    rw [Finset.mem_filter] at hc
    exact ⟨c, hc.1, Finset.erase_ssubset hc.2, Or.inl hc.2⟩
  · obtain ⟨c, hc, rfl⟩ := hc'
    rw [Finset.mem_filter] at hc
    exact ⟨c, hc.1, Finset.erase_ssubset hc.2, Or.inr hc.2⟩

/-- Claim C5 (amended): every clause produced by the literal-elimination
step is a proper subset of some input clause containing the chosen literal
or its negation, with that literal removed — so an input clause containing
neither polarity is never carried over on its own account, though it may
reappear when it coincides with such a reduced clause. -/
theorem c5_amended_result_clauses_are_reduced_forms (cnf : Formula) (lit : Lit) :
    ∀ c' ∈ resStep cnf lit, ∃ c ∈ cnf, c' ⊂ c ∧ (lit ∈ c ∨ negate lit ∈ c) :=
  resStep_mem_reduced cnf lit

/-- Witness for the amended C5: the surviving clause `{B, C}` of `cnfC5`
is a proper subset of the input clause `{A, B, C}` which contains `A`. -/
theorem c5_amended_witness :
    (({litB, litC} : Clause) ∈ resStep cnfC5 litA) ∧
      (∃ c ∈ cnfC5, ({litB, litC} : Clause) ⊂ c ∧ (litA ∈ c ∨ negate litA ∈ c)) :=
  ⟨by decide,
    c5_amended_result_clauses_are_reduced_forms cnfC5 litA {litB, litC} (by decide)⟩

/-- Already-returned states are fixed points of the loop iteration. -/
theorem iterN_inr (choose : Formula → Lit) (m : Nat) :
    ∀ n r, iterN choose m n (.inr r) = .inr r := by
  intro n
  induction n with
  | zero => intro r; rfl
  | succ k ih =>
    intro r
    show iterN choose m k (stepState choose m (.inr r)) = .inr r
    exact ih r

/-- Running the loop body `fuel + 1` times from step counter
`m - fuel` returns exactly the value computed by the budget-indexed
recursion with `fuel` remaining steps. -/
theorem iterN_eq_dpFuel (choose : Formula → Lit) (m : Nat) :
    ∀ fuel steps cnf, steps + fuel = m →
      iterN choose m (fuel + 1) (.inl (cnf, steps)) = .inr (dpFuel choose fuel cnf) := by
  intro fuel
  induction fuel with
  | zero =>
    intro steps cnf h
    show iterN choose m 0 (stepState choose m (.inl (cnf, steps))) = _
    show loopBody choose m (cnf, steps) = _
    rw [loopBody, if_pos (by omega : m ≤ (cnf, steps).2)]
    rfl
  | succ n ih =>
    intro steps cnf h
    show iterN choose m (n + 1) (stepState choose m (.inl (cnf, steps))) = _
    have hbody : stepState choose m (.inl (cnf, steps)) = loopBody choose m (cnf, steps) := rfl
    rw [hbody, loopBody]
    rw [if_neg (by omega : ¬ m ≤ (cnf, steps).2)]
    simp only []
    by_cases h1 : (find_pure_literals cnf).Nonempty
    · rw [if_pos h1]
      rw [ih (steps + 1) (pureElim cnf) (by omega)]
      rw [dpFuel, if_pos h1]
    · rw [if_neg h1]
      by_cases h2 : (unitLits cnf).Nonempty
      · rw [if_pos h2]
        rw [ih (steps + 1) _ (by omega)]
        rw [dpFuel, if_neg h1, if_pos h2]
      · rw [if_neg h2]
        by_cases h3 : (∅ : Clause) ∈ cnf
        · rw [if_pos h3, iterN_inr]
          rw [dpFuel, if_neg h1, if_neg h2, if_pos h3]
        · rw [if_neg h3]
          by_cases h4 : cnf = ∅
          · rw [if_pos h4, iterN_inr]
            rw [dpFuel, if_neg h1, if_neg h2, if_neg h3, if_pos h4]
          · rw [if_neg h4]
            rw [ih (steps + 1) _ (by omega)]
            rw [dpFuel, if_neg h1, if_neg h2, if_neg h3, if_neg h4]

/-- Claim C9: `davis_putnam` is total — starting from step counter 0,
iterating the loop body at most `max_steps + 1` times always reaches a
returned result (so at most `max_steps` rewriting iterations are
performed), and that result is one of exactly SAT, UNSAT and ABORTED. -/
theorem c9_decide_total_and_bounded (choose : Formula → Lit) (cnf : Formula)
    (max_steps : Nat) :
    iterN choose max_steps (max_steps + 1) (.inl (cnf, 0)) =
        .inr (davis_putnam choose cnf max_steps) ∧
      (davis_putnam choose cnf max_steps = .SAT ∨
        davis_putnam choose cnf max_steps = .UNSAT ∨
        davis_putnam choose cnf max_steps = .ABORTED) := by
  refine ⟨iterN_eq_dpFuel choose max_steps max_steps 0 cnf (by omega), ?_⟩
  cases h : davis_putnam choose cnf max_steps
  · exact Or.inl rfl
  · exact Or.inr (Or.inl rfl)
  · exact Or.inr (Or.inr rfl)

/-- Each rewriting of the loop body keeps every clause a subset of some
clause of the previous formula. -/
theorem loopBody_subsumes (choose : Formula → Lit) (m : Nat) (cnf : Formula)
    (steps : Nat) (cnf' : Formula) (steps' : Nat)
    (hstep : loopBody choose m (cnf, steps) = .inl (cnf', steps')) :
    ∀ c' ∈ cnf', ∃ c ∈ cnf, c' ⊆ c := by
  simp only [loopBody] at hstep
  by_cases h1 : m ≤ steps
  · rw [if_pos h1] at hstep
    exact absurd hstep (by simp)
  rw [if_neg h1] at hstep
  by_cases h2 : (find_pure_literals cnf).Nonempty
  · rw [if_pos h2] at hstep
    simp only [Sum.inl.injEq, Prod.mk.injEq] at hstep
    rw [← hstep.1]
    intro c' hc'
    exact ⟨c', (Finset.mem_filter.mp hc').1, subset_rfl⟩
  rw [if_neg h2] at hstep
  by_cases h3 : (unitLits cnf).Nonempty
  · rw [if_pos h3] at hstep
    simp only [Sum.inl.injEq, Prod.mk.injEq] at hstep
    rw [← hstep.1]
    intro c' hc'
    rw [unit_propagate, Finset.mem_image] at hc'
    obtain ⟨c, hc, rfl⟩ := hc'
    exact ⟨c, (Finset.mem_filter.mp hc).1, Finset.filter_subset _ _⟩
  rw [if_neg h3] at hstep
  by_cases h4 : (∅ : Clause) ∈ cnf
  · rw [if_pos h4] at hstep
    exact absurd hstep (by simp)
  rw [if_neg h4] at hstep
  by_cases h5 : cnf = ∅
  · rw [if_pos h5] at hstep
    exact absurd hstep (by simp)
  rw [if_neg h5] at hstep
  simp only [Sum.inl.injEq, Prod.mk.injEq] at hstep
  rw [← hstep.1]
  intro c' hc'
  obtain ⟨c, hc, hss, -⟩ := resStep_mem_reduced cnf (choose cnf) c' hc'
  exact ⟨c, hc, hss.subset⟩

/-- Iterating the loop preserves clause subsumption by the start formula. -/
theorem iterN_subsumes (choose : Formula → Lit) (m : Nat) :
    ∀ n cnf0 steps0 cnf steps,
      iterN choose m n (.inl (cnf0, steps0)) = .inl (cnf, steps) →
      ∀ c ∈ cnf, ∃ c0 ∈ cnf0, c ⊆ c0 := by
  intro n
  induction n with
  | zero =>
    intro cnf0 steps0 cnf steps h
    simp only [iterN, Sum.inl.injEq, Prod.mk.injEq] at h
    rw [← h.1]
    exact fun c hc => ⟨c, hc, subset_rfl⟩
  | succ k ih =>
    intro cnf0 steps0 cnf steps h
    have hun : iterN choose m (k + 1) (.inl (cnf0, steps0)) =
        iterN choose m k (loopBody choose m (cnf0, steps0)) := rfl
    rw [hun] at h
    cases hlb : loopBody choose m (cnf0, steps0) with
    | inr r =>
      rw [hlb, iterN_inr] at h
      exact absurd h (by simp)
    | inl st' =>
      obtain ⟨cnf1, steps1⟩ := st'
      rw [hlb] at h
      have hsub1 := loopBody_subsumes choose m cnf0 steps0 cnf1 steps1 hlb
      have hsub2 := ih cnf1 steps1 cnf steps h
      intro c hc
      obtain ⟨c1, hc1, hs⟩ := hsub2 c hc
      obtain ⟨c0, hc0, hs'⟩ := hsub1 c1 hc1
      exact ⟨c0, hc0, hs.trans hs'⟩

/-- Claim C10: throughout every run of `decide`, every clause of the
working formula at the start of any loop iteration is a subset of some
clause of the original input formula — the three rewritings only keep
clauses or remove literals from them. -/
theorem c10_working_clauses_subsume_input (choose : Formula → Lit)
    (max_steps n : Nat) (cnf0 cnf : Formula) (steps : Nat)
    (h : iterN choose max_steps n (.inl (cnf0, 0)) = .inl (cnf, steps)) :
    ∀ c ∈ cnf, ∃ c0 ∈ cnf0, c ⊆ c0 :=
  iterN_subsumes choose max_steps n cnf0 0 cnf steps h

/-- Witness for C10: after one pure-literal iteration on
`{{A}, {¬A,B}, {¬B,C}}` every working clause is a subset of an input one. -/
theorem c10_witness :
    (iterN chooseA 10 1 (.inl ({{litA}, {nlitA, litB}, {nlitB, litC}}, 0)) =
        .inl (pureElim {{litA}, {nlitA, litB}, {nlitB, litC}}, 1)) ∧
      (∀ c ∈ pureElim {{litA}, {nlitA, litB}, {nlitB, litC}},
        ∃ c0 ∈ ({{litA}, {nlitA, litB}, {nlitB, litC}} : Formula), c ⊆ c0) :=
  ⟨by decide,
    c10_working_clauses_subsume_input chooseA 10 1 _ _ 1 (by decide)⟩

end DP
